import Mathlib

/-!
Verification development for the Shoseki weekly-rankings scraper
(src/shoseki_scraper.py).  The Python source is shallowly embedded as
executable Lean definitions over `List Char` / `Nat` / `Int`:

* `estimate`        embeds the closure built by `_make_estimator`;
* `parseBaseline`   embeds `_parse_baseline` (marker search, token scan, sort);
* `processTitle`    embeds the title normalisation and volume extraction of
                    `_extract_rank_list`;
* `matchRow` / `extractRankList` embed `ROW_RE` matching and row collection;
* `extractDateInfo` embeds `_extract_date_info`;
* `buildRankings` / `scrapePipeline` embed the assembly loop of
                    `scrape_latest_weekly_and_estimate`.

Machine floats in the interpolation are modelled as exact rationals with
truncation toward zero (Python `int(...)`); Python exceptions are modelled
as `Option`-`none` results; regular expressions are embedded as explicit
matchers over character lists with the backtracking priorities of the
Python `re` engine (greedy / lazy) made explicit.  Unicode digit classes
beyond ASCII and full-width forms are not modelled.
-/

namespace Shoseki

/-- Whitespace as recognised by Python `str.strip` and the regex class `\s`
(Unicode whitespace). -/
def isPyWs (c : Char) : Bool :=
  c.toNat = 32 || c.toNat = 9 || c.toNat = 10 || c.toNat = 11 || c.toNat = 12 ||
  c.toNat = 13 || (28 ≤ c.toNat && c.toNat ≤ 31) || c.toNat = 133 ||
  c.toNat = 160 || c.toNat = 5760 || (8192 ≤ c.toNat && c.toNat ≤ 8202) ||
  c.toNat = 8232 || c.toNat = 8233 || c.toNat = 8239 || c.toNat = 8287 ||
  c.toNat = 12288

/-- Full-width decimal digit (U+FF10 – U+FF19). -/
def isFwDigit (c : Char) : Bool := 0xFF10 ≤ c.toNat && c.toNat ≤ 0xFF19

/-- Digit as matched by Python `\d`: ASCII or full-width decimal digit. -/
def isReDigit (c : Char) : Bool := c.isDigit || isFwDigit c

/-- Numeric value of a (possibly full-width) decimal digit. -/
def digitVal (c : Char) : Nat :=
  if 0xFF10 ≤ c.toNat then c.toNat - 0xFF10 else c.toNat - 48

/-- Python `int` on a digit string. -/
def natOfDigits (ds : List Char) : Nat :=
  ds.foldl (fun n c => 10 * n + digitVal c) 0

/-- Drop a (possibly empty) leading whitespace run: the forced reading of a
greedy `\s*` that is followed by a non-whitespace element. -/
def dropWs (cs : List Char) : List Char := cs.dropWhile isPyWs

/-- Python `str.strip`. -/
def trim (cs : List Char) : List Char :=
  ((cs.dropWhile isPyWs).reverse.dropWhile isPyWs).reverse

/-! ## Sales estimator (`_make_estimator`, src lines 144–158) -/

/-- Truncation toward zero of an exact rational: Python `int(...)` applied to
the real value of the interpolation expression. -/
def truncQ (q : Rat) : Int := q.num.tdiv (q.den : Int)

/-- `int(v1 + (v2 - v1) * (rank - r1) / (r2 - r1))` with the float division
modelled as exact rational division. -/
def interpVal (r1 v1 r2 v2 rank : Int) : Int :=
  truncQ ((v1 : Rat) +
    ((v2 : Rat) - (v1 : Rat)) * ((rank : Rat) - (r1 : Rat)) /
      ((r2 : Rat) - (r1 : Rat)))

/-- The estimator closure returned by `_make_estimator breakpoints`.
`none` models the `ValueError` raised for a rank outside
`1 ≤ rank ≤ breakpoints[-1][0]` (and the degenerate empty list, on which the
Python code would fail when indexing `breakpoints[-1]`). -/
def estimate (bps : List (Int × Int)) (rank : Int) : Option Int :=
  match bps with
  | [] => none
  | b0 :: rest =>
    let bl := (b0 :: rest).getLast (List.cons_ne_nil b0 rest)
    if ¬(1 ≤ rank ∧ rank ≤ bl.1) then none
    else if rank ≤ b0.1 then some (-1)
    else
      match List.find? (fun p => decide (p.1 = rank)) (b0 :: rest) with
      | some p => some p.2
      | none =>
        match List.find? (fun pq => decide (pq.1.1 < rank ∧ rank < pq.2.1))
            ((b0 :: rest).zip rest) with
        | some pq => some (interpVal pq.1.1 pq.1.2 pq.2.1 pq.2.2 rank)
        | none => some bl.2

/-- Breakpoint ranks in strictly ascending order: the shape produced by
`_parse_baseline` (sorted, and with distinct ranks as the data model's
`BaselinePoint` invariant requires). -/
abbrev RanksSorted (l : List (Int × Int)) : Prop :=
  l.Pairwise (fun p q => p.1 < q.1)

/-! ## Baseline parser (`_parse_baseline`, src lines 134–141) -/

/-- The marker phrase おおまかな実売目安 of the baseline regex. -/
def markerPhrase : List Char := "おおまかな実売目安".data

/-- Scan the remainder of the current line (stopping at a newline) for an
occurrence of the marker phrase; return the characters following it.
This realises `[^\n]*おおまかな実売目安` starting right after a `※`:
the greedy star only decides *which* occurrence is used, and everything
after the phrase up to the end of line is consumed by the following
`[^\n]*` in any case, so scanning left to right is equivalent. -/
def phraseInLine (cs : List Char) : Option (List Char) :=
  match cs with
  | [] => none
  | c :: rest =>
    if c = '\n' then none
    else if markerPhrase.isPrefixOf (c :: rest) then
      some ((c :: rest).drop markerPhrase.length)
    else phraseInLine rest

/-- `re.search(r"※[^\n]*おおまかな実売目安[^\n]*\n?(.*)", text)`: find the
leftmost `※` whose line also contains the marker phrase after it, skip to
the end of that line, optionally consume the newline, and return the
following line (group 1: `.` does not cross a newline). -/
def markerTail (text : List Char) : Option (List Char) :=
  match text with
  | [] => none
  | c :: rest =>
    if c = '※' then
      match phraseInLine rest with
      | some after =>
        let afterLine := after.dropWhile (fun x => ¬(x = '\n'))
        let tl :=
          match afterLine with
          | '\n' :: t => t
          | t => t
        some (tl.takeWhile (fun x => ¬(x = '\n')))
      | none => markerTail rest
    else markerTail rest

/-- `re.findall(r"(\d+)位(\d+)", s)`: leftmost non-overlapping occurrences of
a digit run, the character 位, and a second digit run.  Both `\d+` are
greedy against non-digit neighbours, so each match is forced to use maximal
runs; a failed attempt advances the scan by one character, which coincides
with recursing on the tail. -/
def findPairsGo : Nat → List Char → List (Nat × Nat)
  | 0, _ => []
  | _, [] => []
  | Nat.succ fuel, c :: rest =>
    if isReDigit c then
      match (c :: rest).dropWhile isReDigit with
      | '位' :: u =>
        if isReDigit (u.headD ' ') then
          (natOfDigits ((c :: rest).takeWhile isReDigit),
              natOfDigits (u.takeWhile isReDigit)) ::
            findPairsGo fuel (u.dropWhile isReDigit)
        else findPairsGo fuel rest
      | _ => findPairsGo fuel rest
    else findPairsGo fuel rest

/-- Entry point with enough fuel: every recursive step of the scan consumes
at least one character, so `length + 1` steps always complete the scan. -/
def findPairs (cs : List Char) : List (Nat × Nat) :=
  findPairsGo (cs.length + 1) cs

/-- Comparison used by Python `sorted` on `(rank, value)` integer pairs:
lexicographic order on the tuple. -/
def pairLe (a b : Nat × Nat) : Prop :=
  a.1 < b.1 ∨ (a.1 = b.1 ∧ a.2 ≤ b.2)

instance : DecidableRel pairLe := fun a b => by
  unfold pairLe; infer_instance

instance : IsTotal (Nat × Nat) pairLe :=
  ⟨by intro a b; unfold pairLe; omega⟩

instance : IsTrans (Nat × Nat) pairLe :=
  ⟨by intro a b c; unfold pairLe; omega⟩

/-- `_parse_baseline`: locate the marker line, scan the following line for
`(\d+)位(\d+)` tokens, and return them sorted by Python `sorted`
(lexicographic on the pairs; the output of a stable sort whose key is the
whole value is determined by the multiset and the order, so Mathlib's
insertion sort realises it exactly).  `none` models the two
`RuntimeError` cases (no marker line / no pairs). -/
def parseBaseline (text : List Char) : Option (List (Nat × Nat)) :=
  match markerTail text with
  | none => none
  | some tl =>
    let ps := findPairs tl
    if ps.isEmpty then none else some (List.insertionSort pairLe ps)

/-! ## Title normalisation and volume extraction
(`_extract_rank_list` body, src lines 183–193) -/

/-- Full-width Latin capital or small letter (U+FF21–FF3A, U+FF41–FF5A). -/
def isFwLatin (c : Char) : Bool :=
  (0xFF21 ≤ c.toNat && c.toNat ≤ 0xFF3A) ||
  (0xFF41 ≤ c.toNat && c.toNat ≤ 0xFF5A)

/-- `re.sub(r"[Ａ-Ｚａ-ｚ]", chr(ord(c) - 0xFEE0), title)` as a character map. -/
def fwLatinToAscii (c : Char) : Char :=
  if isFwLatin c then Char.ofNat (c.toNat - 0xFEE0) else c

/-- `re.sub(r"[０-９]", str(int(c)), title)` as a character map
(`str(int(c))` on one full-width digit is its ASCII digit). -/
def fwDigitToAscii (c : Char) : Char :=
  if isFwDigit c then Char.ofNat (c.toNat - 0xFEE0) else c

/-- `title.replace("　", " ")` as a character map. -/
def fwSpaceToAscii (c : Char) : Char := if c = '　' then ' ' else c

/-- The staged title clean-up of `_extract_rank_list`:
`strip`, replace full-width spaces and `strip` again, then normalise
full-width Latin letters and full-width digits. -/
def normTitle (g2 : List Char) : List Char :=
  let t1 := trim g2
  let t2 := trim (t1.map fwSpaceToAscii)
  (t2.map fwLatinToAscii).map fwDigitToAscii

/-- `re.search(r"\s(\d+)$", title)`: the trailing maximal digit run, provided
it is non-empty and preceded by a whitespace character; its integer value
becomes the volume. -/
def volumeOf (t : List Char) : Option Nat :=
  let r := t.reverse
  let ds := r.takeWhile isReDigit
  if ds.isEmpty then none
  else
    match r.dropWhile isReDigit with
    | [] => none
    | c :: _ => if isPyWs c then some (natOfDigits ds.reverse) else none

/-- Title text and optional volume produced for the matched group 2 of a row. -/
def processTitle (g2 : List Char) : List Char × Option Nat :=
  let t := normTitle g2
  (t, volumeOf t)

/-- Single-pass character normalisation, the specification's reading of the
clean-up: full-width Latin letters and digits to ASCII, full-width space to
ASCII space, all other characters unchanged. -/
def charNormSpec (c : Char) : Char :=
  if isFwLatin c then Char.ofNat (c.toNat - 0xFEE0)
  else if isFwDigit c then Char.ofNat (c.toNat - 0xFEE0)
  else if c = '　' then ' '
  else c

/-! ## Row matching (`ROW_RE`, src lines 164–171, and `_extract_rank_list`) -/

/-- `^\s*(\d{1,3})\s*` followed by `<`: leading whitespace, then the rank
digits.  The greedy `\s*` runs are forced (their neighbours are not
whitespace), and a digit run longer than 3 fails the whole anchored match
because the leftover digits can satisfy neither `\s*` nor `<`. -/
def parseRank (cs : List Char) : Option (List Char × List Char) :=
  let ds := cs.takeWhile isReDigit
  if ds.length = 0 then none
  else if 3 < ds.length then none
  else some (ds, cs.dropWhile isReDigit)

/-- `<[^>]+>\s*\d+\s*</a>` with the following `\s*` left to the caller:
the ISBN link.  All greedy pieces are forced by their non-overlapping
neighbour classes. -/
def parseLink (cs : List Char) : Option (List Char) :=
  match cs with
  | '<' :: cs1 =>
    let tag := cs1.takeWhile (fun c => ¬(c = '>'))
    if tag.isEmpty then none
    else
      match cs1.dropWhile (fun c => ¬(c = '>')) with
      | '>' :: cs2 =>
        let cs3 := dropWs cs2
        let num := cs3.takeWhile isReDigit
        if num.isEmpty then none
        else
          match dropWs (cs3.dropWhile isReDigit) with
          | '<' :: '/' :: 'a' :: '>' :: cs4 => some cs4
          | _ => none
      | _ => none
  | _ => none

/-- The deterministic prefix of `ROW_RE`: rank digits and ISBN link;
returns the rank digit run and the remaining characters after `</a>`. -/
def rowPrefix (cs : List Char) : Option (List Char × List Char) :=
  match parseRank (dropWs cs) with
  | none => none
  | some (ds, cs1) => (parseLink (dropWs cs1)).map (fun rest => (ds, rest))

/-- `\d{4}\.\d{2}\.\d{2}$`: the publication date, anchored at the end of the
(stripped) candidate line. -/
def matchDateEnd (cs : List Char) : Bool :=
  match cs with
  | [a, b, c, d, '.', e, f, '.', g, h] =>
    isReDigit a && isReDigit b && isReDigit c && isReDigit d &&
    isReDigit e && isReDigit f && isReDigit g && isReDigit h
  | _ => false

/-- `(?:\S+\s+){n}` followed by the end-anchored date: since only success
matters after the title group has been fixed, this is a plain existential
over the token/whitespace splits the engine would try. -/
def toksDate (n : Nat) (cs : List Char) : Bool :=
  match n with
  | 0 => matchDateEnd cs
  | Nat.succ m =>
    let t := cs.takeWhile (fun c => ¬isPyWs c)
    (List.range t.length).any (fun i =>
      let cs2 := cs.drop (i + 1)
      let w := cs2.takeWhile isPyWs
      (List.range w.length).any (fun j => toksDate m (cs2.drop (j + 1))))

/-- `\s*([^<]+?)\s+(?:\S+\s+){2}\d{4}\.\d{2}\.\d{2}$` after the link:
the greedy `\s*` tries longer whitespace runs first, the lazy title group
tries shorter titles first, and the first combination whose tail matches
yields the title group — exactly the `re` engine's priority order. -/
def findTitleSplit (cs : List Char) : Option (List Char) :=
  let k0 := (cs.takeWhile isPyWs).length
  (List.range (k0 + 1)).findSome? (fun a =>
    let cs1 := cs.drop (k0 - a)
    let m := (cs1.takeWhile (fun c => ¬(c = '<'))).length
    (List.range m).findSome? (fun i =>
      let g2 := cs1.take (i + 1)
      let cs2 := cs1.drop (i + 1)
      let w := (cs2.takeWhile isPyWs).length
      if (List.range w).any (fun j => toksDate 2 (cs2.drop (j + 1))) then
        some g2
      else none))

/-- `ROW_RE.match(raw.strip())` followed by the title clean-up: on success,
the integer rank, the cleaned title and the optional volume. -/
def matchRow (raw : List Char) : Option (Nat × List Char × Option Nat) :=
  match rowPrefix (trim raw) with
  | none => none
  | some (ds, rest) =>
    match findTitleSplit rest with
    | none => none
    | some g2 =>
      let tv := processTitle g2
      some (natOfDigits ds, tv.1, tv.2)

/-- The separator of `entry.decode_contents().split("<br/>")`. -/
def brTag : List Char := "<br/>".data

def splitBrGo : Nat → List Char → List (List Char)
  | 0, cs => [cs]
  | Nat.succ fuel, cs =>
    if brTag.isPrefixOf cs then [] :: splitBrGo fuel (cs.drop brTag.length)
    else
      match cs with
      | [] => [[]]
      | c :: rest =>
        match splitBrGo fuel rest with
        | [] => [[c]]
        | seg :: segs => (c :: seg) :: segs

/-- Python `str.split` on the fixed separator `"<br/>"`; every recursive
step consumes at least one character, so `length + 1` steps suffice. -/
def splitBr (cs : List Char) : List (List Char) :=
  splitBrGo (cs.length + 1) cs

/-- `_extract_rank_list`: `none` stands for a document without an
`entry_body` container (`soup.find` returned `None`); otherwise the body
markup is split on `"<br/>"` and every candidate line is matched. -/
def extractRankList (entry : Option (List Char)) :
    List (Nat × List Char × Option Nat) :=
  match entry with
  | none => []
  | some body => (splitBr body).filterMap matchRow

/-! ## Date extraction (`_extract_date_info`, src lines 199–237) -/

/-- The result dictionary of `_extract_date_info`; every field optional. -/
structure DateInfo where
  jpDate : Option (List Char)
  enDate : Option (List Char)
  year : Option (List Char)
  month : Option (List Char)
  week : Option (List Char)
deriving DecidableEq, Repr

/-- The all-absent dictionary returned for a missing or non-matching header. -/
def emptyDateInfo : DateInfo := ⟨none, none, none, none, none⟩

/-- `calendar.month_name` (English month names; index 0 is the empty string).
Indexing past 12 raises `IndexError` in Python, modelled as `none`. -/
def monthName (n : Nat) : Option (List Char) :=
  (["", "January", "February", "March", "April", "May", "June", "July",
    "August", "September", "October", "November", "December"].map
      String.data).get? n

/-- `(\d{1,2})` followed by a literal separator character.  The greedy
two-digit attempt and the one-digit attempt are mutually exclusive (the
separator characters are not digits), so the match is deterministic. -/
def numThen (sep : Char) (cs : List Char) : Option (List Char × List Char) :=
  match cs with
  | a :: b :: rest =>
    if isReDigit a then
      if isReDigit b then
        match rest with
        | c :: rest2 => if c = sep then some ([a, b], rest2) else none
        | [] => none
      else if b = sep then some ([a], rest) else none
    else none
  | _ => none

/-- Final `(\d{1,2})` of the weekly pattern: greedy, nothing follows. -/
def numEnd (cs : List Char) : Option (List Char) :=
  match cs with
  | a :: b :: _ =>
    if isReDigit a then some (if isReDigit b then [a, b] else [a]) else none
  | [a] => if isReDigit a then some [a] else none
  | [] => none

/-- Attempt of `(\d{4})年(\d{1,2})/(\d{1,2})-(\d{1,2})/(\d{1,2})` anchored at
the current position. -/
def matchWeeklyAt (cs : List Char) :
    Option (List Char × List Char × List Char × List Char × List Char) :=
  match cs with
  | a :: b :: c :: d :: '年' :: r1 =>
    if isReDigit a && isReDigit b && isReDigit c && isReDigit d then
      match numThen '/' r1 with
      | none => none
      | some (m1, r2) =>
        match numThen '-' r2 with
        | none => none
        | some (d1, r3) =>
          match numThen '/' r3 with
          | none => none
          | some (m2, r4) =>
            match numEnd r4 with
            | none => none
            | some d2 => some ([a, b, c, d], m1, d1, m2, d2)
    else none
  | _ => none

/-- `re.search` for the weekly date pattern: leftmost matching start. -/
def searchWeekly (cs : List Char) :
    Option (List Char × List Char × List Char × List Char × List Char) :=
  match cs with
  | [] => none
  | c :: rest =>
    match matchWeeklyAt (c :: rest) with
    | some g => some g
    | none => searchWeekly rest

/-- Attempt of `(\d{4})年(\d{1,2})月` anchored at the current position. -/
def matchMonthlyAt (cs : List Char) : Option (List Char × List Char) :=
  match cs with
  | a :: b :: c :: d :: '年' :: r1 =>
    if isReDigit a && isReDigit b && isReDigit c && isReDigit d then
      match numThen '月' r1 with
      | none => none
      | some (m, _) => some ([a, b, c, d], m)
    else none
  | _ => none

/-- `re.search` for the monthly date pattern: leftmost matching start. -/
def searchMonthly (cs : List Char) : Option (List Char × List Char) :=
  match cs with
  | [] => none
  | c :: rest =>
    match matchMonthlyAt (c :: rest) with
    | some g => some g
    | none => searchMonthly rest

/-- `_extract_date_info`.  The outer `Option` is the Python exception
channel: `none` models the `IndexError` raised by
`calendar.month_name[int(month)]` for a month number above 12; a missing
header (`soup.find` returned `None`) or a non-matching header yields the
all-absent dictionary. -/
def extractDateInfo (header : Option (List Char)) (isMonthly : Bool) :
    Option DateInfo :=
  match header with
  | none => some emptyDateInfo
  | some text =>
    if isMonthly then
      match searchMonthly text with
      | none => some emptyDateInfo
      | some (y, m) =>
        match monthName (natOfDigits m) with
        | none => none
        | some mn =>
          some ⟨some (y ++ '年' :: m ++ ['月']),
                some (mn ++ ' ' :: y),
                some y, some m, none⟩
    else
      match searchWeekly text with
      | none => some emptyDateInfo
      | some (y, m1, d1, m2, d2) =>
        match monthName (natOfDigits m1), monthName (natOfDigits m2) with
        | some n1, some n2 =>
          some ⟨some (y ++ '年' :: (m1 ++ '/' :: d1 ++ '-' :: m2 ++ '/' :: d2)),
                some (n1 ++ ' ' :: d1 ++ ' ' :: '-' :: ' ' :: n2 ++
                  ' ' :: d2 ++ ',' :: ' ' :: y),
                some y, none,
                some (m1 ++ '/' :: d1 ++ '-' :: m2 ++ '/' :: d2)⟩
        | _, _ => none

/-! ## Pipeline assembly (`scrape_latest_weekly_and_estimate`,
src lines 244–289) -/

/-- Provenance of a resolved English title. -/
inductive TitleSource where
  | anilist
  | machineTranslation
deriving DecidableEq, Repr

/-- One element of the `results` list (a `RankingEntry`). -/
structure REntry where
  rank : Nat
  jpTitle : List Char
  enTitle : List Char
  enSource : TitleSource
  volume : Option Nat
  estimatedSales : Int
deriving DecidableEq, Repr

/-- `en_map.get(jp)` and the fallback `_machine_translate`, with the
external services abstracted as function parameters (`enMap` is the batched
AniList result, `mt` the translator, both out-of-scope collaborators). -/
def resolveTitle (enMap : List Char → Option (List Char))
    (mt : List Char → List Char) (jp : List Char) : List Char × TitleSource :=
  match enMap jp with
  | some e => (e, TitleSource.anilist)
  | none => (mt jp, TitleSource.machineTranslation)

/-- The `RankingEntry` assembled for one extracted row. -/
def entryOf (enMap : List Char → Option (List Char))
    (mt : List Char → List Char) (est : Int → Option Int)
    (row : Nat × List Char × Option Nat) : REntry :=
  let rs := resolveTitle enMap mt row.2.1
  ⟨row.1, row.2.1, rs.1, rs.2, row.2.2, (est (row.1 : Int)).getD 0⟩

/-- The `for rank, jp, volume in rank_lines` loop: rows above the limit are
skipped; an estimator failure (`ValueError`) aborts the whole run
(`none`); otherwise one entry per kept row, in extraction order. -/
def buildRankings (enMap : List Char → Option (List Char))
    (mt : List Char → List Char) (est : Int → Option Int) (limit : Nat) :
    List (Nat × List Char × Option Nat) → Option (List REntry)
  | [] => some []
  | row :: rest =>
    if limit < row.1 then buildRankings enMap mt est limit rest
    else
      match est (row.1 : Int) with
      | none => none
      | some _ =>
        (buildRankings enMap mt est limit rest).map
          (fun l => entryOf enMap mt est row :: l)

/-- The fields of the returned dictionary that the extraction loop
determines: `total_entries` and `rankings`. -/
structure ScrapeOut where
  totalEntries : Nat
  rankings : List REntry
deriving DecidableEq, Repr

/-- `{"total_entries": len(results), "rankings": results}`. -/
def assembleResult (entries : List REntry) : ScrapeOut :=
  ⟨entries.length, entries⟩

/-- The row-processing tail of `scrape_latest_weekly_and_estimate`, from
extracted rows to the output document. -/
def scrapePipeline (enMap : List Char → Option (List Char))
    (mt : List Char → List Char) (est : Int → Option Int) (limit : Nat)
    (rankLines : List (Nat × List Char × Option Nat)) : Option ScrapeOut :=
  (buildRankings enMap mt est limit rankLines).map assembleResult

/-! ## Supporting lemmas -/

theorem toNat_ofNat_lt (n : Nat) (h : n < 0xD800) : (Char.ofNat n).toNat = n := by
  have hv : n.isValidChar := Or.inl h
  simp only [Char.ofNat, dif_pos hv, Char.ofNatAux, Char.toNat, UInt32.toNat,
    BitVec.toNat_ofNatLt]

theorem head_rank_le_of_sorted {l : List (Int × Int)} {x p : Int × Int}
    (hs : RanksSorted (x :: l)) (hp : p ∈ x :: l) : x.1 ≤ p.1 := by
  rcases List.mem_cons.mp hp with h | h
  · exact h ▸ le_refl _
  · exact le_of_lt ((List.pairwise_cons.mp hs).1 p h)

theorem rank_le_getLast_of_sorted :
    ∀ (l : List (Int × Int)) (hne : l ≠ []) (hs : RanksSorted l)
      (p : Int × Int), p ∈ l → p.1 ≤ (l.getLast hne).1
  | [a], _, _, p, hp => by
    have : p = a := by simpa using hp
    simp [this]
  | a :: b :: t, _, hs, p, hp => by
    rw [List.getLast_cons (List.cons_ne_nil b t)]
    rcases List.mem_cons.mp hp with h | h
    · have hmem : (b :: t).getLast (List.cons_ne_nil b t) ∈ b :: t :=
        List.getLast_mem _
      exact h ▸ le_of_lt ((List.pairwise_cons.mp hs).1 _ hmem)
    · exact rank_le_getLast_of_sorted (b :: t) (List.cons_ne_nil b t)
        (List.pairwise_cons.mp hs).2 p h

theorem find?_rank_of_sorted :
    ∀ (l : List (Int × Int)), RanksSorted l → ∀ (r v : Int), (r, v) ∈ l →
      List.find? (fun p => decide (p.1 = r)) l = some (r, v)
  | a :: t, hs, r, v, hm => by
    rcases List.mem_cons.mp hm with h | h
    · rw [List.find?_cons]
      have ha : decide (a.1 = r) = true := by
        rw [← h]
        simp
      rw [ha, ← h]
    · have hlt : a.1 < r := by
        have := (List.pairwise_cons.mp hs).1 _ h
        simpa using this
      rw [List.find?_cons]
      have ha : decide (a.1 = r) = false := by
        simp [ne_of_lt hlt]
      rw [ha]
      exact find?_rank_of_sorted t (List.pairwise_cons.mp hs).2 r v h

theorem find?_zip_of_sorted :
    ∀ (pre : List (Int × Int)) (a b : Int × Int) (post : List (Int × Int))
      (rank : Int), RanksSorted (pre ++ a :: b :: post) →
      a.1 < rank → rank < b.1 →
      List.find? (fun pq => decide (pq.1.1 < rank ∧ rank < pq.2.1))
        ((pre ++ a :: b :: post).zip (pre ++ a :: b :: post).tail) =
        some (a, b)
  | [], a, b, post, rank, hs, h1, h2 => by
    simp only [List.nil_append, List.tail_cons, List.zip_cons_cons,
      List.find?_cons]
    have hc : decide (a.1 < rank ∧ rank < b.1) = true := by
      simp [h1, h2]
    rw [hc]
  | x :: pre, a, b, post, rank, hs, h1, h2 => by
    have hs' : RanksSorted (pre ++ a :: b :: post) :=
      (List.pairwise_cons.mp hs).2
    rcases hy : pre ++ a :: b :: post with _ | ⟨y, t⟩
    · exact absurd hy (by simp)
    · have hmem : a ∈ pre ++ a :: b :: post := by simp
      have hyle : y.1 ≤ a.1 := by
        rw [hy] at hs' hmem
        exact head_rank_le_of_sorted hs' hmem
      have hcond : (fun pq : (Int × Int) × Int × Int =>
          decide (pq.1.1 < rank ∧ rank < pq.2.1)) (x, y) = false := by
        simp only [decide_eq_false_iff_not]
        rintro ⟨_, hr⟩
        omega
      have ih := find?_zip_of_sorted pre a b post rank hs' h1 h2
      rw [hy] at ih
      simp only [List.cons_append, hy, List.tail_cons, List.zip_cons_cons,
        List.find?_cons, hcond]
      simpa using ih

/-! ## C1–C4: claims about the sales estimator -/

/-- C1 (counterexample): for the accepted breakpoint list
`[(1, 5000), (10, 1000)]` the claim asserts that the estimator returns the
recorded value 5000 at rank 1; the code's below-first shortcut fires first
and returns −1. -/
theorem c1_counterexample :
    estimate [(1, 5000), (10, 1000)] 1 = some (-1) ∧
    ¬(estimate [(1, 5000), (10, 1000)] 1 = some 5000) := by
  exact ⟨rfl, by decide⟩

/-- C1 (amended): exact breakpoint ranks return the recorded value for every
breakpoint except the first one; at the first breakpoint's rank the
"below first breakpoint" shortcut wins and −1 is returned. -/
theorem c1_amended (b0 : Int × Int) (rest : List (Int × Int))
    (hs : RanksSorted (b0 :: rest)) (hpos : ∀ p ∈ b0 :: rest, 1 ≤ p.1) :
    (∀ r v, (r, v) ∈ rest → estimate (b0 :: rest) r = some v) ∧
    estimate (b0 :: rest) b0.1 = some (-1) := by
  constructor
  · intro r v hm
    have hm2 : (r, v) ∈ b0 :: rest := List.mem_cons_of_mem _ hm
    have h1 : (1 : Int) ≤ r := by
      have := hpos _ hm2; simpa using this
    have h2 : r ≤ ((b0 :: rest).getLast (List.cons_ne_nil b0 rest)).1 := by
      have := rank_le_getLast_of_sorted _ (List.cons_ne_nil b0 rest) hs _ hm2
      simpa using this
    have h3 : b0.1 < r := by
      have := (List.pairwise_cons.mp hs).1 _ hm; simpa using this
    have hfind := find?_rank_of_sorted _ hs r v hm2
    simp only [estimate]
    rw [if_neg (not_not_intro ⟨h1, h2⟩), if_neg (not_le.mpr h3), hfind]
  · have h1 : (1 : Int) ≤ b0.1 := hpos _ (List.mem_cons_self b0 rest)
    have h2 : b0.1 ≤ ((b0 :: rest).getLast (List.cons_ne_nil b0 rest)).1 :=
      rank_le_getLast_of_sorted _ (List.cons_ne_nil b0 rest) hs _
        (List.mem_cons_self b0 rest)
    simp only [estimate]
    rw [if_neg (not_not_intro ⟨h1, h2⟩), if_pos (le_refl b0.1)]

/-- C1 (witness): on `[(1, 5000), (10, 1000)]` the amended claim gives
`estimate 10 = 1000` and `estimate 1 = −1`. -/
theorem c1_amended_witness :
    estimate [(1, 5000), (10, 1000)] 10 = some 1000 ∧
    estimate [(1, 5000), (10, 1000)] ((1 : Int), (5000 : Int)).1 = some (-1) := by
  have h := c1_amended (1, 5000) [(10, 1000)] (by decide) (by decide)
  exact ⟨h.1 10 1000 (by simp), h.2⟩

/-- C2 (counterexample): for `[(1, 5000), (10, 1000)]` the claim asserts that
rank 11 (≥ the last breakpoint rank) clamps to 1000; the code's domain check
raises `RankOutOfRange` instead. -/
theorem c2_counterexample :
    estimate [(1, 5000), (10, 1000)] 11 = none ∧
    ¬(estimate [(1, 5000), (10, 1000)] 11 = some 1000) := by
  exact ⟨rfl, by decide⟩

/-- C2 (amended): with at least two breakpoints, a rank equal to the last
breakpoint's rank returns the last breakpoint's value; every rank strictly
above it fails with `RankOutOfRange` rather than clamping. -/
theorem c2_amended (b0 b1 : Int × Int) (rest : List (Int × Int))
    (bl : Int × Int) (hs : RanksSorted (b0 :: b1 :: rest))
    (hpos : ∀ p ∈ b0 :: b1 :: rest, 1 ≤ p.1)
    (hl : (b0 :: b1 :: rest).getLast (List.cons_ne_nil b0 (b1 :: rest)) = bl) :
    estimate (b0 :: b1 :: rest) bl.1 = some bl.2 ∧
    ∀ rank, bl.1 < rank → estimate (b0 :: b1 :: rest) rank = none := by
  have hmem : bl ∈ b0 :: b1 :: rest := hl ▸ List.getLast_mem _
  have hmemt : bl ∈ b1 :: rest := by
    have := List.getLast_cons (l := b1 :: rest) (a := b0)
      (List.cons_ne_nil b1 rest)
    rw [this] at hl
    exact hl ▸ List.getLast_mem _
  constructor
  · have h1 : (1 : Int) ≤ bl.1 := hpos _ hmem
    have h3 : b0.1 < bl.1 := (List.pairwise_cons.mp hs).1 _ hmemt
    have hfind := find?_rank_of_sorted _ hs bl.1 bl.2 (by simpa using hmem)
    simp only [estimate]
    rw [hl, if_neg (not_not_intro ⟨h1, le_refl bl.1⟩),
      if_neg (not_le.mpr h3), hfind]
  · intro rank hr
    simp only [estimate]
    rw [hl, if_pos (by rintro ⟨_, h⟩; omega)]

/-- C2 (witness): on `[(1, 5000), (10, 1000)]` the amended claim gives
`estimate 10 = 1000` and `estimate 12 = none`. -/
theorem c2_amended_witness :
    estimate [(1, 5000), (10, 1000)] ((10 : Int), (1000 : Int)).1 =
      some ((10 : Int), (1000 : Int)).2 ∧
    estimate [(1, 5000), (10, 1000)] 12 = none := by
  have h := c2_amended (1, 5000) (10, 1000) [] (10, 1000) (by decide)
    (by decide) rfl
  exact ⟨h.1, h.2 12 (by decide)⟩

/-- C3: the estimator fails (raises `RankOutOfRange`) exactly on ranks below
1 or above the maximum breakpoint rank; every rank inside the domain
returns a value. -/
theorem c3_theorem (bps : List (Int × Int)) (bl : Int × Int) (rank : Int)
    (hl : bps.getLast? = some bl) :
    estimate bps rank = none ↔ rank < 1 ∨ bl.1 < rank := by
  match bps with
  | [] => simp at hl
  | b0 :: rest =>
    have hbl : (b0 :: rest).getLast (List.cons_ne_nil b0 rest) = bl := by
      rw [List.getLast?_eq_getLast (b0 :: rest) (List.cons_ne_nil b0 rest)]
        at hl
      exact Option.some.inj hl
    simp only [estimate]
    rw [hbl]
    by_cases hc : 1 ≤ rank ∧ rank ≤ bl.1
    · rw [if_neg (not_not_intro hc)]
      constructor
      · intro h
        exfalso
        split at h
        · simp at h
        · split at h
          · simp at h
          · split at h
            · simp at h
            · simp at h
      · intro h
        exfalso
        omega
    · rw [if_pos hc]
      simp only [true_iff]
      omega

/-- C3 (witness): for `[(1, 5000), (10, 1000)]`, rank 5 is in the domain and
produces a value. -/
theorem c3_witness :
    (estimate [(1, 5000), (10, 1000)] 5 = none ↔
      (5 : Int) < 1 ∨ ((10 : Int), (1000 : Int)).1 < 5) ∧
    (estimate [(1, 5000), (10, 1000)] 5).isSome = true := by
  exact ⟨c3_theorem [(1, 5000), (10, 1000)] (10, 1000) 5 rfl, by decide⟩

/-- C4: for a rank strictly between two consecutive breakpoints the
estimator returns the linear interpolation
`int(v1 + (v2 - v1) * (rank - r1) / (r2 - r1))`, the value of the exact
expression truncated toward zero. -/
theorem c4_theorem (pre post : List (Int × Int)) (r1 v1 r2 v2 rank : Int)
    (hs : RanksSorted (pre ++ (r1, v1) :: (r2, v2) :: post))
    (hpos : ∀ p ∈ pre ++ (r1, v1) :: (r2, v2) :: post, 1 ≤ p.1)
    (hlo : r1 < rank) (hhi : rank < r2) :
    estimate (pre ++ (r1, v1) :: (r2, v2) :: post) rank =
      some (truncQ ((v1 : Rat) + ((v2 : Rat) - (v1 : Rat)) *
        ((rank : Rat) - (r1 : Rat)) / ((r2 : Rat) - (r1 : Rat)))) := by
  have hsA := hs
  have hfindA : List.find? (fun p => decide (p.1 = rank))
      (pre ++ (r1, v1) :: (r2, v2) :: post) = none := by
    rw [List.find?_eq_none]
    intro p hp
    simp only [decide_eq_true_eq]
    rcases List.mem_append.mp hp with hp | hp
    · have : p.1 < r1 := by
        have := (List.pairwise_append.mp hsA).2.2 p hp (r1, v1) (by simp)
        simpa using this
      omega
    · rcases List.mem_cons.mp hp with rfl | hp
      · simp only []
        omega
      · rcases List.mem_cons.mp hp with rfl | hp
        · simp only []
          omega
        · have hs2 : RanksSorted ((r1, v1) :: (r2, v2) :: post) :=
            (List.pairwise_append.mp hsA).2.1
          have := (List.pairwise_cons.mp
            (List.pairwise_cons.mp hs2).2).1 p hp
          simp only [] at this
          omega
  have hzipA := find?_zip_of_sorted pre (r1, v1) (r2, v2) post rank hsA hlo hhi
  obtain ⟨c0, rest, hl0⟩ :
      ∃ c0 rest, pre ++ (r1, v1) :: (r2, v2) :: post = c0 :: rest := by
    cases pre with
    | nil => exact ⟨_, _, rfl⟩
    | cons p pre2 => exact ⟨_, _, rfl⟩
  rw [hl0] at hs hpos hfindA hzipA ⊢
  have hmem1 : (r1, v1) ∈ c0 :: rest := by rw [← hl0]; simp
  have hmem2 : (r2, v2) ∈ c0 :: rest := by rw [← hl0]; simp
  have h1r : (1 : Int) ≤ rank := by
    have := hpos _ hmem1
    simp only [] at this
    omega
  have hlast : rank ≤ ((c0 :: rest).getLast (List.cons_ne_nil c0 rest)).1 := by
    have := rank_le_getLast_of_sorted _ (List.cons_ne_nil c0 rest) hs _ hmem2
    simp only [] at this
    omega
  have hhead : c0.1 < rank := by
    have := head_rank_le_of_sorted hs hmem1
    simp only [] at this
    omega
  simp only [List.tail_cons] at hzipA
  simp only [estimate]
  rw [if_neg (not_not_intro ⟨h1r, hlast⟩), if_neg (not_le.mpr hhead), hfindA,
    hzipA]
  rfl

/-- C4 (witness): between the breakpoints (1, 5000) and (10, 1000), rank 5
interpolates to `int(5000 − 4000·4/9) = int(29000/9) = 3222`. -/
theorem c4_witness :
    estimate ([] ++ (1, 5000) :: (10, 1000) :: []) 5 =
      some (truncQ ((5000 : Rat) + ((1000 : Rat) - (5000 : Rat)) *
        ((5 : Rat) - (1 : Rat)) / ((10 : Rat) - (1 : Rat)))) ∧
    truncQ ((5000 : Rat) + ((1000 : Rat) - (5000 : Rat)) *
      ((5 : Rat) - (1 : Rat)) / ((10 : Rat) - (1 : Rat))) = 3222 := by
  refine ⟨c4_theorem [] [] 1 5000 10 1000 5 (by decide) (by decide)
    (by decide) (by decide), ?_⟩
  have he : (5000 : Rat) + ((1000 : Rat) - (5000 : Rat)) *
      ((5 : Rat) - (1 : Rat)) / ((10 : Rat) - (1 : Rat)) =
      Rat.divInt 29000 9 := by
    rw [Rat.divInt_eq_div]
    norm_num
  rw [he]
  decide

/-! ## Character-class bridging lemmas -/

theorem isDigit_iff (c : Char) : c.isDigit = true ↔
    48 ≤ c.toNat ∧ c.toNat ≤ 57 := by
  simp [Char.isDigit, Char.toNat, UInt32.le_def, BitVec.le_def, UInt32.toNat]

theorem isFwDigit_iff (c : Char) : isFwDigit c = true ↔
    0xFF10 ≤ c.toNat ∧ c.toNat ≤ 0xFF19 := by
  simp [isFwDigit]

theorem isReDigit_iff (c : Char) : isReDigit c = true ↔
    (48 ≤ c.toNat ∧ c.toNat ≤ 57) ∨ (0xFF10 ≤ c.toNat ∧ c.toNat ≤ 0xFF19) := by
  simp [isReDigit, isDigit_iff, isFwDigit_iff]

theorem isFwLatin_iff (c : Char) : isFwLatin c = true ↔
    (0xFF21 ≤ c.toNat ∧ c.toNat ≤ 0xFF3A) ∨
    (0xFF41 ≤ c.toNat ∧ c.toNat ≤ 0xFF5A) := by
  simp [isFwLatin]

theorem isPyWs_iff (c : Char) : isPyWs c = true ↔
    (c.toNat = 32 ∨ c.toNat = 9 ∨ c.toNat = 10 ∨ c.toNat = 11 ∨
     c.toNat = 12 ∨ c.toNat = 13 ∨ (28 ≤ c.toNat ∧ c.toNat ≤ 31) ∨
     c.toNat = 133 ∨ c.toNat = 160 ∨ c.toNat = 5760 ∨
     (8192 ≤ c.toNat ∧ c.toNat ≤ 8202) ∨ c.toNat = 8232 ∨ c.toNat = 8233 ∨
     c.toNat = 8239 ∨ c.toNat = 8287 ∨ c.toNat = 12288) := by
  simp [isPyWs]
  tauto

theorem ws_not_digit (c : Char) (h : isPyWs c = true) : isReDigit c = false := by
  rw [Bool.eq_false_iff]
  intro hd
  rw [isReDigit_iff] at hd
  rw [isPyWs_iff] at h
  omega

theorem digitVal_le_9 (c : Char) (h : isReDigit c = true) : digitVal c ≤ 9 := by
  rw [isReDigit_iff] at h
  unfold digitVal
  split <;> omega

/-! ## C5: claims about the baseline parser -/

/-- C5 (counterexample): with two tokens of equal rank, `5位100 5位50`, the
extraction order is `[(5, 100), (5, 50)]`, but Python `sorted` compares the
whole `(rank, value)` tuples, so equal ranks are reordered by ascending
value instead of keeping first-occurrence order as the claim asserts. -/
theorem c5_counterexample :
    markerTail "※おおまかな実売目安\n5位100 5位50".data =
      some "5位100 5位50".data ∧
    findPairs "5位100 5位50".data = [(5, 100), (5, 50)] ∧
    parseBaseline "※おおまかな実売目安\n5位100 5位50".data =
      some [(5, 50), (5, 100)] ∧
    ¬(parseBaseline "※おおまかな実売目安\n5位100 5位50".data =
        some [(5, 100), (5, 50)]) := by
  exact ⟨rfl, rfl, by decide, by decide⟩

/-- C5 (amended): the baseline parser returns the extracted pairs sorted
ascending lexicographically — ascending by rank, equal ranks ordered by
ascending sales value — with duplicates kept (the result is a permutation
of the extracted token sequence). -/
theorem c5_amended (text : List Char) (l : List (Nat × Nat))
    (h : parseBaseline text = some l) :
    l.Sorted pairLe ∧
    ∃ tl, markerTail text = some tl ∧ l.Perm (findPairs tl) ∧
      findPairs tl ≠ [] := by
  rcases hm : markerTail text with _ | tl
  · simp only [parseBaseline, hm] at h
    exact absurd h (by simp)
  · simp only [parseBaseline, hm] at h
    by_cases he : (findPairs tl).isEmpty
    · rw [if_pos he] at h
      exact absurd h (by simp)
    · rw [if_neg he] at h
      have hl : l = List.insertionSort pairLe (findPairs tl) :=
        (Option.some.inj h).symm
      subst hl
      refine ⟨List.sorted_insertionSort pairLe _, tl, rfl,
        List.perm_insertionSort pairLe _, ?_⟩
      simpa [List.isEmpty_iff] using he

/-- C5 (witness): the spec's own example text sorts to
`[(1, 5000), (10, 1000), (50, 200)]`. -/
theorem c5_amended_witness :
    ([(1, 5000), (10, 1000), (50, 200)] : List (Nat × Nat)).Sorted pairLe ∧
    ∃ tl, markerTail "※おおまかな実売目安\n1位5000 10位1000 50位200".data =
        some tl ∧
      ([(1, 5000), (10, 1000), (50, 200)] : List (Nat × Nat)).Perm
        (findPairs tl) ∧
      findPairs tl ≠ [] :=
  c5_amended _ _ (by decide)

/-! ## C6: the pipeline limit filter -/

theorem buildRankings_eq (enMap : List Char → Option (List Char))
    (mt : List Char → List Char) (est : Int → Option Int) (limit : Nat) :
    ∀ ls : List (Nat × List Char × Option Nat),
      (∀ row ∈ ls, row.1 ≤ limit → (est (row.1 : Int)).isSome) →
      buildRankings enMap mt est limit ls =
        some ((ls.filter (fun row => decide (row.1 ≤ limit))).map
          (entryOf enMap mt est)) := by
  intro ls
  induction ls with
  | nil => intro _; rfl
  | cons row rest ih =>
    intro hd
    by_cases hr : limit < row.1
    · have hdec : decide (row.1 ≤ limit) = false := by
        simp only [decide_eq_false_iff_not]
        omega
      simp only [buildRankings, if_pos hr, List.filter_cons, hdec]
      exact ih (fun r h hh => hd r (List.mem_cons_of_mem _ h) hh)
    · have hle : row.1 ≤ limit := by omega
      have hsome := hd row (List.mem_cons_self _ _) hle
      rcases hs : est (row.1 : Int) with _ | v
      · rw [hs] at hsome
        simp at hsome
      · have hdec : decide (row.1 ≤ limit) = true := by
          simp only [decide_eq_true_eq]
          omega
        simp only [buildRankings, if_neg hr, hs, List.filter_cons, hdec,
          ih (fun r h hh => hd r (List.mem_cons_of_mem _ h) hh), Option.map_some]
        rfl

/-- C6: rows with rank above the limit are skipped without error, each
remaining row yields exactly one entry in extraction order, and
`total_entries` equals the length of `rankings`. -/
theorem c6_theorem (enMap : List Char → Option (List Char))
    (mt : List Char → List Char) (est : Int → Option Int) (limit : Nat)
    (lines : List (Nat × List Char × Option Nat)) (hlim : 0 < limit)
    (hdom : ∀ row ∈ lines, row.1 ≤ limit → (est (row.1 : Int)).isSome) :
    buildRankings enMap mt est limit lines =
      some ((lines.filter (fun row => decide (row.1 ≤ limit))).map
        (entryOf enMap mt est)) ∧
    scrapePipeline enMap mt est limit lines = some
      (assembleResult ((lines.filter (fun row => decide (row.1 ≤ limit))).map
        (entryOf enMap mt est))) ∧
    ∀ out, scrapePipeline enMap mt est limit lines = some out →
      out.totalEntries = out.rankings.length := by
  have hmain := buildRankings_eq enMap mt est limit lines hdom
  refine ⟨hmain, ?_, ?_⟩
  · simp [scrapePipeline, hmain]
  · intro out hout
    simp only [scrapePipeline, hmain, Option.map_some] at hout
    rw [← Option.some.inj hout]
    rfl

/-- C6 (witness): limit 3 with rows ranked 1–5 keeps exactly the rows ranked
1, 2, 3, in order, and reports `total_entries = 3`. -/
theorem c6_witness :
    buildRankings (fun _ => none) (fun jp => jp)
        (estimate [(1, 500), (2, 400), (3, 300), (10, 100)]) 3
        [(1, "a".data, none), (2, "b".data, some 2), (3, "c".data, none),
          (4, "d".data, none), (5, "e".data, none)] =
      some (([(1, "a".data, none), (2, "b".data, some 2), (3, "c".data, none),
          (4, "d".data, none),
          (5, "e".data, none)].filter (fun row => decide (row.1 ≤ 3))).map
        (entryOf (fun _ => none) (fun jp => jp)
          (estimate [(1, 500), (2, 400), (3, 300), (10, 100)]))) ∧
    scrapePipeline (fun _ => none) (fun jp => jp)
        (estimate [(1, 500), (2, 400), (3, 300), (10, 100)]) 3
        [(1, "a".data, none), (2, "b".data, some 2), (3, "c".data, none),
          (4, "d".data, none), (5, "e".data, none)] =
      some ⟨3,
        [⟨1, "a".data, "a".data, TitleSource.machineTranslation, none, -1⟩,
         ⟨2, "b".data, "b".data, TitleSource.machineTranslation, some 2, 400⟩,
         ⟨3, "c".data, "c".data, TitleSource.machineTranslation, none,
           300⟩]⟩ := by
  have h := c6_theorem (fun _ => none) (fun jp => jp)
    (estimate [(1, 500), (2, 400), (3, 300), (10, 100)]) 3
    [(1, "a".data, none), (2, "b".data, some 2), (3, "c".data, none),
      (4, "d".data, none), (5, "e".data, none)] (by decide) (by decide)
  exact ⟨h.1, by decide⟩

/-! ## C7: title normalisation lemmas -/

theorem ws_fwSpace (c : Char) : isPyWs (fwSpaceToAscii c) = isPyWs c := by
  unfold fwSpaceToAscii
  by_cases h : c = '　'
  · rw [if_pos h, h]
    decide
  · rw [if_neg h]

theorem ws_fwLatin (c : Char) : isPyWs (fwLatinToAscii c) = isPyWs c := by
  unfold fwLatinToAscii
  by_cases h : isFwLatin c = true
  · rw [if_pos h]
    rw [isFwLatin_iff] at h
    have ht : (Char.ofNat (c.toNat - 0xFEE0)).toNat = c.toNat - 0xFEE0 :=
      toNat_ofNat_lt _ (by omega)
    have h1 : isPyWs (Char.ofNat (c.toNat - 0xFEE0)) = false := by
      rw [Bool.eq_false_iff]
      intro hw
      rw [isPyWs_iff, ht] at hw
      omega
    have h2 : isPyWs c = false := by
      rw [Bool.eq_false_iff]
      intro hw
      rw [isPyWs_iff] at hw
      omega
    rw [h1, h2]
  · rw [if_neg h]

theorem ws_fwDigit (c : Char) : isPyWs (fwDigitToAscii c) = isPyWs c := by
  unfold fwDigitToAscii
  by_cases h : isFwDigit c = true
  · rw [if_pos h]
    rw [isFwDigit_iff] at h
    have ht : (Char.ofNat (c.toNat - 0xFEE0)).toNat = c.toNat - 0xFEE0 :=
      toNat_ofNat_lt _ (by omega)
    have h1 : isPyWs (Char.ofNat (c.toNat - 0xFEE0)) = false := by
      rw [Bool.eq_false_iff]
      intro hw
      rw [isPyWs_iff, ht] at hw
      omega
    have h2 : isPyWs c = false := by
      rw [Bool.eq_false_iff]
      intro hw
      rw [isPyWs_iff] at hw
      omega
    rw [h1, h2]
  · rw [if_neg h]

theorem charNorm_comp (c : Char) :
    fwDigitToAscii (fwLatinToAscii (fwSpaceToAscii c)) = charNormSpec c := by
  by_cases hL : isFwLatin c = true
  · have hS : fwSpaceToAscii c = c := by
      unfold fwSpaceToAscii
      exact if_neg (fun hc => absurd (hc ▸ hL) (by decide))
    have hb := (isFwLatin_iff c).mp hL
    have ht : (Char.ofNat (c.toNat - 0xFEE0)).toNat = c.toNat - 0xFEE0 :=
      toNat_ofNat_lt _ (by omega)
    have hnd : ¬(isFwDigit (Char.ofNat (c.toNat - 0xFEE0)) = true) := by
      intro hd
      rw [isFwDigit_iff, ht] at hd
      omega
    rw [hS]
    unfold fwLatinToAscii fwDigitToAscii charNormSpec
    rw [if_pos hL, if_neg hnd, if_pos hL]
  · by_cases hD : isFwDigit c = true
    · have hS : fwSpaceToAscii c = c := by
        unfold fwSpaceToAscii
        exact if_neg (fun hc => absurd (hc ▸ hD) (by decide))
      rw [hS]
      unfold fwLatinToAscii fwDigitToAscii charNormSpec
      rw [if_neg hL, if_pos hD, if_neg hL, if_pos hD]
    · by_cases hSp : c = '　'
      · subst hSp
        decide
      · unfold fwSpaceToAscii fwLatinToAscii fwDigitToAscii charNormSpec
        simp only [if_neg hSp, if_neg hL, if_neg hD]

theorem ws_charNormSpec (c : Char) : isPyWs (charNormSpec c) = isPyWs c := by
  rw [← charNorm_comp c, ws_fwDigit, ws_fwLatin, ws_fwSpace]

theorem head_of_dropWhile_eq_false {α : Type} {p : α → Bool} :
    ∀ {l : List α} {x : α} {t : List α}, l.dropWhile p = x :: t →
      p x = false
  | [], x, t, h => by simp at h
  | a :: l, x, t, h => by
    rw [List.dropWhile_cons] at h
    by_cases ha : p a = true
    · rw [if_pos ha] at h
      exact head_of_dropWhile_eq_false h
    · rw [if_neg ha] at h
      have : a = x := (List.cons.injEq _ _ _ _ ▸ h).1
      rw [← this]
      exact Bool.eq_false_iff.mpr ha

theorem dropWhile_prefix_fix {α : Type} {p : α → Bool} {l B : List α}
    (hB : B <+: l.dropWhile p) : B.dropWhile p = B := by
  rcases B with _ | ⟨x, t⟩
  · rfl
  · obtain ⟨s, hs⟩ := hB
    have hd : l.dropWhile p = x :: (t ++ s) := by
      rw [← hs]
      rfl
    have hx := head_of_dropWhile_eq_false hd
    rw [List.dropWhile_cons, if_neg (by rw [hx]; exact Bool.false_ne_true)]

theorem trim_trim (l : List Char) : trim (trim l) = trim l := by
  unfold trim
  have h1 : (((l.dropWhile isPyWs).reverse.dropWhile
      isPyWs).reverse).dropWhile isPyWs =
      ((l.dropWhile isPyWs).reverse.dropWhile isPyWs).reverse := by
    have hsuf : (l.dropWhile isPyWs).reverse.dropWhile isPyWs <:+
        (l.dropWhile isPyWs).reverse := List.dropWhile_suffix isPyWs
    have hpre := List.reverse_prefix.mpr hsuf
    rw [List.reverse_reverse] at hpre
    exact dropWhile_prefix_fix hpre
  rw [h1, List.reverse_reverse,
    dropWhile_prefix_fix (l := (l.dropWhile isPyWs).reverse)
      (List.prefix_refl _)]

theorem trim_map (f : Char → Char) (hf : ∀ c, isPyWs (f c) = isPyWs c)
    (l : List Char) : trim (l.map f) = (trim l).map f := by
  have hcomp : (isPyWs ∘ f) = isPyWs := funext hf
  unfold trim
  rw [List.dropWhile_map, hcomp, ← List.map_reverse, List.dropWhile_map,
    hcomp, ← List.map_reverse]

theorem normTitle_eq (g2 : List Char) :
    normTitle g2 = trim (g2.map charNormSpec) := by
  simp only [normTitle]
  rw [trim_map fwSpaceToAscii ws_fwSpace, trim_trim, List.map_map,
    List.map_map]
  have hco : ((fwDigitToAscii ∘ fwLatinToAscii) ∘ fwSpaceToAscii) =
      charNormSpec := funext charNorm_comp
  rw [hco, trim_map charNormSpec ws_charNormSpec]

theorem takeWhile_all_append {α : Type} {p : α → Bool} {A : List α}
    (hA : ∀ x ∈ A, p x = true) (c : α) (hc : p c = false) (B : List α) :
    (A ++ c :: B).takeWhile p = A ∧ (A ++ c :: B).dropWhile p = c :: B := by
  induction A with
  | nil =>
    constructor
    · rw [List.nil_append, List.takeWhile_cons, if_neg (by simp [hc])]
    · rw [List.nil_append, List.dropWhile_cons, if_neg (by simp [hc])]
  | cons a A ih =>
    have ha := hA a (by simp)
    have ihh := ih (fun x hx => hA x (by simp [hx]))
    constructor
    · rw [List.cons_append, List.takeWhile_cons, if_pos ha, ihh.1]
    · rw [List.cons_append, List.dropWhile_cons, if_pos ha, ihh.2]

theorem volumeOf_some_iff (t : List Char) (n : Nat) :
    volumeOf t = some n ↔
      ∃ pre c ds, t = pre ++ c :: ds ∧ isPyWs c = true ∧ ds ≠ [] ∧
        (∀ x ∈ ds, isReDigit x = true) ∧ n = natOfDigits ds := by
  constructor
  · intro h
    rcases hd : t.reverse.dropWhile isReDigit with _ | ⟨c, rest⟩
    · simp only [volumeOf, hd] at h
      split at h
      · exact absurd h (by simp)
      · exact absurd h (by simp)
    · simp only [volumeOf, hd] at h
      by_cases he : (t.reverse.takeWhile isReDigit).isEmpty
      · rw [if_pos he] at h
        exact absurd h (by simp)
      · rw [if_neg he] at h
        by_cases hw : isPyWs c = true
        · rw [if_pos hw] at h
          refine ⟨rest.reverse, c, (t.reverse.takeWhile isReDigit).reverse,
            ?_, hw, ?_, ?_, ?_⟩
          · have hsplit := List.takeWhile_append_dropWhile
              (p := isReDigit) (l := t.reverse)
            rw [hd] at hsplit
            calc t = t.reverse.reverse := (List.reverse_reverse t).symm
              _ = (t.reverse.takeWhile isReDigit ++ c :: rest).reverse := by
                    rw [hsplit]
              _ = rest.reverse ++ c ::
                    (t.reverse.takeWhile isReDigit).reverse := by
                    rw [List.reverse_append, List.reverse_cons,
                      List.append_assoc, List.singleton_append]
          · simp only [ne_eq, List.reverse_eq_nil_iff]
            intro hnil
            rw [hnil] at he
            exact he rfl
          · intro x hx
            exact List.mem_takeWhile_imp (List.mem_reverse.mp hx)
          · exact (Option.some.inj h).symm
        · rw [if_neg hw] at h
          exact absurd h (by simp)
  · rintro ⟨pre, c, ds, rfl, hc, hne, hdig, rfl⟩
    have hcd : isReDigit c = false := ws_not_digit c hc
    have hds : ∀ x ∈ ds.reverse, isReDigit x = true := fun x hx =>
      hdig x (List.mem_reverse.mp hx)
    have hrev : (pre ++ c :: ds).reverse =
        ds.reverse ++ c :: pre.reverse := by
      rw [List.reverse_append, List.reverse_cons, List.append_assoc,
        List.singleton_append]
    have htw := takeWhile_all_append hds c hcd pre.reverse
    have hemp : (ds.reverse).isEmpty = false := by
      rw [Bool.eq_false_iff]
      intro hx
      exact hne (by simpa [List.isEmpty_iff, List.reverse_eq_nil_iff] using hx)
    simp only [volumeOf, hrev, htw.1, htw.2, hemp, Bool.false_eq_true,
      if_false, hc, if_true, List.reverse_reverse]

/-- C7: every matched row's title is the per-character full-width
normalisation of the matched title group followed by a trim, and the volume
field is populated exactly when the normalised title ends in a whitespace
character followed by a digit run, whose integer value it then carries;
the digits remain part of the title text. -/
theorem c7_theorem (raw : List Char) (r : Nat) (t : List Char)
    (v : Option Nat) (h : matchRow raw = some (r, t, v)) :
    (∃ g2 : List Char, t = trim (g2.map charNormSpec)) ∧ v = volumeOf t ∧
    ∀ n, v = some n ↔
      ∃ pre c ds, t = pre ++ c :: ds ∧ isPyWs c = true ∧ ds ≠ [] ∧
        (∀ x ∈ ds, isReDigit x = true) ∧ n = natOfDigits ds := by
  rcases hp : rowPrefix (trim raw) with _ | ⟨ds0, rest⟩
  · simp only [matchRow, hp] at h
    exact absurd h (by simp)
  · rcases hf : findTitleSplit rest with _ | g2
    · simp only [matchRow, hp, hf] at h
      exact absurd h (by simp)
    · simp only [matchRow, hp, hf, processTitle] at h
      obtain ⟨hr, ht, hv⟩ : natOfDigits ds0 = r ∧ normTitle g2 = t ∧
          volumeOf (normTitle g2) = v := by
        have h3 := Option.some.inj h
        simpa [Prod.ext_iff] using h3
      subst ht
      subst hv
      refine ⟨⟨g2, normTitle_eq g2⟩, rfl, fun n => volumeOf_some_iff _ n⟩

/-- C7 (witness): the row line with title `ＮＡＲＵＴＯ　７２` normalises to
`NARUTO 72` with volume 72, and the digits stay in the title. -/
theorem c7_witness :
    (∃ g2 : List Char, "NARUTO 72".data = trim (g2.map charNormSpec)) ∧
    (some 72 : Option Nat) = volumeOf "NARUTO 72".data ∧
    ∀ n, (some 72 : Option Nat) = some n ↔
      ∃ pre c ds, "NARUTO 72".data = pre ++ c :: ds ∧ isPyWs c = true ∧
        ds ≠ [] ∧ (∀ x ∈ ds, isReDigit x = true) ∧ n = natOfDigits ds :=
  c7_theorem "1 <a>123</a> ＮＡＲＵＴＯ　７２ 集英社 岸本 2024.01.01".data 1
    "NARUTO 72".data (some 72) (by decide)

/-! ## C8: the RankRow invariant -/

theorem foldl_digits_lt :
    ∀ (ds : List Char) (a : Nat), (∀ c ∈ ds, isReDigit c = true) →
      ds.foldl (fun n c => 10 * n + digitVal c) a < (a + 1) * 10 ^ ds.length
  | [], a, _ => by simpa using Nat.lt_succ_self a
  | c :: ds, a, h => by
    have hc : digitVal c ≤ 9 := digitVal_le_9 c (h c (by simp))
    have ih := foldl_digits_lt ds (10 * a + digitVal c)
      (fun x hx => h x (by simp [hx]))
    have h2 : (10 * a + digitVal c + 1) * 10 ^ ds.length ≤
        (a + 1) * 10 ^ (ds.length + 1) := by
      rw [pow_succ, show (10 : Nat) ^ ds.length * 10 =
        10 * 10 ^ ds.length from Nat.mul_comm _ _, ← Nat.mul_assoc]
      exact Nat.mul_le_mul_right _ (by omega)
    simp only [List.foldl_cons, List.length_cons]
    exact lt_of_lt_of_le ih h2

theorem natOfDigits_le_999 {ds : List Char} (hlen : ds.length ≤ 3)
    (hdig : ∀ c ∈ ds, isReDigit c = true) : natOfDigits ds ≤ 999 := by
  have h := foldl_digits_lt ds 0 hdig
  have hpow : (10 : Nat) ^ ds.length ≤ 10 ^ 3 :=
    Nat.pow_le_pow_right (by omega) hlen
  unfold natOfDigits
  simp only [Nat.zero_add, Nat.one_mul] at h
  have h1000 : (10 : Nat) ^ 3 = 1000 := by norm_num
  omega

theorem parseRank_inv {cs ds rest : List Char}
    (h : parseRank cs = some (ds, rest)) :
    ds.length ≤ 3 ∧ ∀ c ∈ ds, isReDigit c = true := by
  simp only [parseRank] at h
  by_cases h0 : (cs.takeWhile isReDigit).length = 0
  · rw [if_pos h0] at h
    exact absurd h (by simp)
  · rw [if_neg h0] at h
    by_cases h3 : 3 < (cs.takeWhile isReDigit).length
    · rw [if_pos h3] at h
      exact absurd h (by simp)
    · rw [if_neg h3] at h
      obtain ⟨h1, _⟩ : cs.takeWhile isReDigit = ds ∧
          cs.dropWhile isReDigit = rest := by
        simpa [Prod.ext_iff] using Option.some.inj h
      subst h1
      exact ⟨by omega, fun c hc => List.mem_takeWhile_imp hc⟩

theorem rowPrefix_inv {cs ds rest : List Char}
    (h : rowPrefix cs = some (ds, rest)) :
    ∃ cs1, parseRank (dropWs cs) = some (ds, cs1) := by
  rcases hpr : parseRank (dropWs cs) with _ | ⟨ds2, cs1⟩
  · simp only [rowPrefix, hpr] at h
    exact absurd h (by simp)
  · simp only [rowPrefix, hpr] at h
    rcases hpl : parseLink (dropWs cs1) with _ | r1
    · rw [hpl] at h
      exact absurd h (by simp)
    · rw [hpl] at h
      obtain ⟨hd, _⟩ : ds2 = ds ∧ r1 = rest := by
        simpa [Prod.ext_iff] using Option.some.inj h
      subst hd
      exact ⟨cs1, rfl⟩

/-- C8 (counterexample): the line `0 <a>1</a>  x y 2024.01.01` matches the
row grammar (the lazy title group captures a single space), producing a
row with rank 0 and an empty title — violating both the positivity of the
rank and the non-emptiness of jpTitle asserted by the claim. -/
theorem c8_counterexample :
    extractRankList (some "0 <a>1</a>  x y 2024.01.01".data) =
      [(0, [], none)] ∧
    ¬(1 ≤ (0 : Nat) ∧ ([] : List Char) ≠ []) := by
  exact ⟨by decide, by decide⟩

/-- C8 (amended): every row produced by the extractor has a rank of at most
999 (the rank group is one to three digits); rank 0 and an empty title
remain possible for degenerate markup. -/
theorem c8_amended (entry : Option (List Char))
    (row : Nat × List Char × Option Nat) (h : row ∈ extractRankList entry) :
    row.1 ≤ 999 := by
  rcases entry with _ | body
  · simp [extractRankList] at h
  · simp only [extractRankList] at h
    obtain ⟨raw, _, hm⟩ := List.mem_filterMap.mp h
    rcases row with ⟨r, t, v⟩
    rcases hp : rowPrefix (trim raw) with _ | ⟨ds0, rest⟩
    · simp only [matchRow, hp] at hm
      exact absurd hm (by simp)
    · rcases hf : findTitleSplit rest with _ | g2
      · simp only [matchRow, hp, hf] at hm
        exact absurd hm (by simp)
      · simp only [matchRow, hp, hf, processTitle] at hm
        obtain ⟨hr, -, -⟩ : natOfDigits ds0 = r ∧ normTitle g2 = t ∧
            volumeOf (normTitle g2) = v := by
          simpa [Prod.ext_iff] using Option.some.inj hm
        obtain ⟨cs1, hpr⟩ := rowPrefix_inv hp
        obtain ⟨hlen, hdig⟩ := parseRank_inv hpr
        exact hr ▸ natOfDigits_le_999 hlen hdig

/-- C8 (witness): a regular row line is kept with its rank, which the
amended claim bounds by 999. -/
theorem c8_amended_witness :
    ((1 : Nat), "NARUTO 72".data, (some 72 : Option Nat)).1 ≤ 999 :=
  c8_amended
    (some "1 <a>123</a> ＮＡＲＵＴＯ　７２ 集英社 岸本 2024.01.01".data)
    (1, "NARUTO 72".data, some 72) (by decide)

/-! ## C9: weekly date extraction -/

theorem monthName_isSome_of_le {k : Nat} (hk : k ≤ 12) :
    ∃ s, monthName k = some s := by
  rcases ho : monthName k with _ | s
  · exfalso
    unfold monthName at ho
    rw [List.get?_eq_none] at ho
    simp only [List.length_map, List.length_cons, List.length_nil] at ho
    omega
  · exact ⟨s, rfl⟩

/-- C9 (counterexample): the weekly header `2025年13/1-14/2 漫画ランキング`
matches the weekly pattern, but building `en_date` indexes
`calendar.month_name[13]`, raising `IndexError` — so the matching header
does not produce the claimed `jp_date`/`week`/`year` fields. -/
theorem c9_counterexample :
    searchWeekly "2025年13/1-14/2 漫画ランキング".data =
      some ("2025".data, "13".data, "1".data, "14".data, "2".data) ∧
    extractDateInfo (some "2025年13/1-14/2 漫画ランキング".data) false =
      none := by
  exact ⟨by decide, by decide⟩

/-- C9 (amended): a weekly header matching the pattern with both month
numbers at most 12 yields `jp_date` (year-prefixed fragment), `week` (the
`M/D-M2/D2` fragment) and `year`; a missing header, or one that does not
match the pattern of the selected period, yields all five fields absent
without an exception; pattern matches with a month above 12 raise
`IndexError`. -/
theorem c9_amended :
    (∀ (h y m1 d1 m2 d2 : List Char),
      searchWeekly h = some (y, m1, d1, m2, d2) →
      natOfDigits m1 ≤ 12 → natOfDigits m2 ≤ 12 →
      ∃ en, extractDateInfo (some h) false = some
        ⟨some (y ++ '年' :: (m1 ++ '/' :: d1 ++ '-' :: m2 ++ '/' :: d2)),
         en, some y, none,
         some (m1 ++ '/' :: d1 ++ '-' :: m2 ++ '/' :: d2)⟩) ∧
    (∀ h : List Char, searchWeekly h = none →
      extractDateInfo (some h) false = some emptyDateInfo) ∧
    (∀ h : List Char, searchMonthly h = none →
      extractDateInfo (some h) true = some emptyDateInfo) ∧
    (∀ b : Bool, extractDateInfo none b = some emptyDateInfo) := by
  refine ⟨?_, ?_, ?_, ?_⟩
  · intro h y m1 d1 m2 d2 hsw hm1 hm2
    obtain ⟨n1, hn1⟩ := monthName_isSome_of_le hm1
    obtain ⟨n2, hn2⟩ := monthName_isSome_of_le hm2
    refine ⟨n1 ++ ' ' :: d1 ++ ' ' :: '-' :: ' ' :: n2 ++ ' ' :: d2 ++
      ',' :: ' ' :: y, ?_⟩
    simp only [extractDateInfo, hsw, hn1, hn2, Bool.false_eq_true, if_false]
  · intro h hsw
    simp only [extractDateInfo, hsw, Bool.false_eq_true, if_false]
  · intro h hsm
    simp only [extractDateInfo, hsm, if_true]
  · intro b
    rfl

/-- C9 (witness): the spec's example header `2025年6/30-7/6 漫画ランキング`
yields `jp_date = 2025年6/30-7/6`, `week = 6/30-7/6`, `year = 2025`. -/
theorem c9_amended_witness :
    ∃ en, extractDateInfo
        (some "2025年6/30-7/6 漫画ランキング".data) false = some
      ⟨some ("2025".data ++ '年' :: ("6".data ++ '/' :: "30".data ++
          '-' :: "7".data ++ '/' :: "6".data)),
       en, some "2025".data, none,
       some ("6".data ++ '/' :: "30".data ++ '-' :: "7".data ++
          '/' :: "6".data)⟩ :=
  c9_amended.1 "2025年6/30-7/6 漫画ランキング".data "2025".data "6".data
    "30".data "7".data "6".data (by decide) (by decide) (by decide)

/-! ## C10: missing entry-body container -/

/-- C10: a document without an entry-body container yields the empty row
list without raising, which is the same result as a present body in which
no line matches the row grammar. -/
theorem c10_theorem :
    extractRankList none = [] ∧
    ∀ body : List Char, (∀ line ∈ splitBr body, matchRow line = none) →
      extractRankList (some body) = extractRankList none := by
  refine ⟨rfl, fun body h => ?_⟩
  simp only [extractRankList]
  exact List.filterMap_eq_nil_iff.mpr h

/-- C10 (witness): a body whose two lines both fail the row grammar yields
the same empty result as a missing container. -/
theorem c10_witness :
    extractRankList (some "hello<br/>world".data) = extractRankList none :=
  c10_theorem.2 "hello<br/>world".data (by decide)

end Shoseki
